import Mathlib

/-!
Verification of the DoorPasses SDK request-authentication core.

The repository ships the package interface (`doorpasses/__init__.py`, which
re-exports `encode_payload`, `create_signature`, `verify_signature` from
`doorpasses.auth` and the `DoorPasses` client from `doorpasses.client`) and the
client tests (`tests/test_client.py`), but the modules `auth.py` and
`client.py` themselves are not part of the sources available here.  The
definitions below therefore model the three auth operations and the client
constructor from the specification's contracts (payload canonicalization with
byte-wise lexicographically sorted keys, HMAC-SHA256 over
`<decimal timestamp> "." <hex of canonical bytes>`, freshness window plus
length-first constant-time comparison), and model the client constructor's
observable behaviour from the shipped tests.

Byte strings are modelled as `List Nat`.  Text is modelled at the level of
Unicode code points (`Char.toNat`); on ASCII data this coincides with UTF-8,
and in general it is an injective, order-preserving byte model, which is all
the properties proved here depend on.
-/

/-- Modelled from the spec: the `Payload` data model of `auth.py` (missing from
the sources) — an ordered mapping of string keys to strings, numbers, booleans,
null, nested payloads, or sequences thereof.  Numbers are modelled as integers;
the spec leaves the float canonicalization rule explicitly open. -/
inductive Value where
  | str  : String → Value
  | num  : Int → Value
  | bool : Bool → Value
  | null : Value
  | arr  : List Value → Value
  | obj  : List (String × Value) → Value

/-- Key order used for canonicalization: byte-wise lexicographic order on the
(UTF-8) keys, which coincides with `String`'s code-point lexicographic order. -/
def entryLe (p q : String × Value) : Prop := p.1 ≤ q.1

instance : DecidableRel entryLe := fun p q => inferInstanceAs (Decidable (p.1 ≤ q.1))

instance : IsTotal (String × Value) entryLe := ⟨fun p q => le_total p.1 q.1⟩

instance : IsTrans (String × Value) entryLe := ⟨fun _ _ _ h1 h2 => le_trans h1 h2⟩

/-- Sort object entries by key (byte-wise lexicographic). -/
def sortEntries (kvs : List (String × Value)) : List (String × Value) :=
  kvs.insertionSort entryLe

mutual

/-- Modelled from the spec: the canonicalization pass of `PayloadEncoder`
(`auth.py` is missing) — keys are sorted at every nesting level; sequences keep
their element order. -/
def canonSort : Value → Value
  | .str s => .str s
  | .num n => .num n
  | .bool b => .bool b
  | .null => .null
  | .arr vs => .arr (canonArr vs)
  | .obj kvs => .obj (sortEntries (canonEntries kvs))
termination_by structural v => v

/-- Canonicalize each element of a sequence, preserving order. -/
def canonArr : List Value → List Value
  | [] => []
  | v :: vs => canonSort v :: canonArr vs
termination_by structural vs => vs

/-- Canonicalize each value of an entry list, preserving keys and order. -/
def canonEntries : List (String × Value) → List (String × Value)
  | [] => []
  | (k, v) :: kvs => (k, canonSort v) :: canonEntries kvs
termination_by structural kvs => kvs

end

/-- Serialize one character of a string, escaping the two delimiter-ambiguous
bytes (quote and backslash); all other characters are emitted verbatim. -/
def escChar (c : Char) : List Nat :=
  if c = '"' ∨ c = '\\' then [92, c.toNat] else [c.toNat]

/-- Byte form of a string body: each character escaped as needed. -/
def strBytes (s : String) : List Nat :=
  s.data.flatMap escChar

/-- Canonical decimal digits (ASCII bytes) of a natural number, no redundant
leading zeros. -/
def natDecimal (n : Nat) : List Nat :=
  if n = 0 then [48] else (Nat.digits 10 n).reverse.map (fun d => 48 + d)

/-- Canonical decimal digits (ASCII bytes) of an integer: optional minus sign
followed by the digits of its absolute value. -/
def intDecimal (n : Int) : List Nat :=
  if n < 0 then 45 :: natDecimal n.natAbs else natDecimal n.natAbs

mutual

/-- Modelled from the spec: the serialization grammar of `PayloadEncoder`
(`auth.py` is missing) — a narrow, explicitly separated grammar: quoted strings
with unambiguous escaping, canonical decimal numbers, the fixed tokens
`true`/`false`/`null`, comma-separated bracketed sequences, and brace-wrapped
`"key":value` entries.  Byte constants are the ASCII codes of the
delimiters. -/
def encodeVal : Value → List Nat
  | .str s => 34 :: strBytes s ++ [34]
  | .num n => intDecimal n
  | .bool b => if b then [116, 114, 117, 101] else [102, 97, 108, 115, 101]
  | .null => [110, 117, 108, 108]
  | .arr vs => 91 :: encodeItems vs ++ [93]
  | .obj kvs => 123 :: encodeEntries kvs ++ [125]
termination_by structural v => v

/-- Comma-separated serialization of sequence elements. -/
def encodeItems : List Value → List Nat
  | [] => []
  | [v] => encodeVal v
  | v :: vs => encodeVal v ++ 44 :: encodeItems vs
termination_by structural vs => vs

/-- Comma-separated serialization of `"key":value` entries. -/
def encodeEntries : List (String × Value) → List Nat
  | [] => []
  | [(k, v)] => 34 :: strBytes k ++ [34, 58] ++ encodeVal v
  | (k, v) :: kvs => 34 :: strBytes k ++ [34, 58] ++ encodeVal v ++ 44 :: encodeEntries kvs
termination_by structural kvs => kvs

end

/-- Modelled from the spec: `encode_payload` of `auth.py` (missing from the
sources) — sort keys at every nesting level, then serialize with the fixed
grammar, producing the CanonicalBytes. -/
def encode_payload (v : Value) : List Nat :=
  encodeVal (canonSort v)

/- ------------------------------------------------------------------ -/
/- SHA-256 and HMAC-SHA256 over byte lists, with 32-bit words as `Nat`
   reduced mod 2^32. -/

/-- 2^32, the word modulus. -/
def w32 : Nat := 4294967296

/-- Addition mod 2^32. -/
def add32 (a b : Nat) : Nat := (a + b) % w32

/-- Right rotation of a 32-bit word. -/
def rotr32 (r x : Nat) : Nat := ((x >>> r) ||| (x <<< (32 - r))) % w32

/-- Logical right shift. -/
def shr32 (r x : Nat) : Nat := x >>> r

/-- Bitwise complement of a 32-bit word. -/
def not32 (x : Nat) : Nat := x ^^^ 4294967295

/-- The SHA-256 round constants. -/
def sha256K : List Nat :=
  [1116352408, 1899447441, 3049323471, 3921009573, 961987163, 1508970993,
   2453635748, 2870763221, 3624381080, 310598401, 607225278, 1426881987,
   1925078388, 2162078206, 2614888103, 3248222580, 3835390401, 4022224774,
   264347078, 604807628, 770255983, 1249150122, 1555081692, 1996064986,
   2554220882, 2821834349, 2952996808, 3210313671, 3336571891, 3584528711,
   113926993, 338241895, 666307205, 773529912, 1294757372, 1396182291,
   1695183700, 1986661051, 2177026350, 2456956037, 2730485921, 2820302411,
   3259730800, 3345764771, 3516065817, 3600352804, 4094571909, 275423344,
   430227734, 506948616, 659060556, 883997877, 958139571, 1322822218,
   1537002063, 1747873779, 1955562222, 2024104815, 2227730452, 2361852424,
   2428436474, 2756734187, 3204031479, 3329325298]

/-- The SHA-256 initial hash state. -/
def sha256H0 : List Nat :=
  [1779033703, 3144134277, 1013904242, 2773480762,
   1359893119, 2600822924, 528734635, 1541459225]

/-- Group a byte list into big-endian 32-bit words, four bytes per word. -/
def bytesToWords : List Nat → List Nat
  | b0 :: b1 :: b2 :: b3 :: rest =>
      (((b0 * 256 + b1) * 256 + b2) * 256 + b3) :: bytesToWords rest
  | _ => []

/-- Big-endian bytes of a 32-bit word. -/
def wordToBytes (x : Nat) : List Nat :=
  [x / 16777216 % 256, x / 65536 % 256, x / 256 % 256, x % 256]

/-- SHA-256 padding: a 0x80 byte, zeros to 56 mod 64, and the 64-bit
big-endian bit length. -/
def sha256Pad (msg : List Nat) : List Nat :=
  let l := msg.length
  let zeros := (64 + 55 - l % 64) % 64
  let bitLen := l * 8
  msg ++ 128 :: List.replicate zeros 0 ++
    [bitLen / 2 ^ 56 % 256, bitLen / 2 ^ 48 % 256, bitLen / 2 ^ 40 % 256, bitLen / 2 ^ 32 % 256,
     bitLen / 2 ^ 24 % 256, bitLen / 2 ^ 16 % 256, bitLen / 2 ^ 8 % 256, bitLen % 256]

/-- SHA-256 lower-case sigma 0. -/
def smallSigma0 (x : Nat) : Nat := rotr32 7 x ^^^ rotr32 18 x ^^^ shr32 3 x

/-- SHA-256 lower-case sigma 1. -/
def smallSigma1 (x : Nat) : Nat := rotr32 17 x ^^^ rotr32 19 x ^^^ shr32 10 x

/-- SHA-256 upper-case sigma 0. -/
def bigSigma0 (x : Nat) : Nat := rotr32 2 x ^^^ rotr32 13 x ^^^ rotr32 22 x

/-- SHA-256 upper-case sigma 1. -/
def bigSigma1 (x : Nat) : Nat := rotr32 6 x ^^^ rotr32 11 x ^^^ rotr32 25 x

/-- Message schedule: produce the given number of additional words; `ws`
accumulates all words so far in reverse. -/
def schedRec : Nat → List Nat → List Nat
  | 0, ws => ws.reverse
  | n + 1, ws =>
    let wt := add32 (add32 (smallSigma1 (ws.getD 1 0)) (ws.getD 6 0))
                    (add32 (smallSigma0 (ws.getD 14 0)) (ws.getD 15 0))
    schedRec n (wt :: ws)

/-- Extend the 16 words of one block to the 64 schedule words. -/
def schedule (block : List Nat) : List Nat :=
  schedRec 48 block.reverse

/-- One SHA-256 compression round; the running state is `[a,b,c,d,e,f,g,h]`. -/
def round256 (st : List Nat) (kw : Nat × Nat) : List Nat :=
  match st with
  | [a, b, c, d, e, f, g, h] =>
      let t1 := add32 h (add32 (bigSigma1 e)
                  (add32 ((e &&& f) ^^^ (not32 e &&& g)) (add32 kw.1 kw.2)))
      let t2 := add32 (bigSigma0 a) ((a &&& b) ^^^ (a &&& c) ^^^ (b &&& c))
      [add32 t1 t2, a, b, c, add32 d t1, e, f, g]
  | st => st

/-- Compress one 64-byte block into the hash state. -/
def compress (h : List Nat) (block : List Nat) : List Nat :=
  let ws := schedule (bytesToWords block)
  let st := (sha256K.zip ws).foldl round256 h
  (h.zip st).map (fun p => add32 p.1 p.2)

/-- Process the given number of 64-byte blocks. -/
def sha256Blocks : Nat → List Nat → List Nat → List Nat
  | 0, h, _ => h
  | n + 1, h, bytes => sha256Blocks n (compress h (bytes.take 64)) (bytes.drop 64)

/-- SHA-256 of a byte list. -/
def sha256 (msg : List Nat) : List Nat :=
  let padded := sha256Pad msg
  (sha256Blocks (padded.length / 64) sha256H0 padded).flatMap wordToBytes

/-- HMAC-SHA256 of a message under a key, both byte lists. -/
def hmacSha256 (key msg : List Nat) : List Nat :=
  let k0 := if key.length > 64 then sha256 key else key
  let kp := k0 ++ List.replicate (64 - k0.length) 0
  let ipad := kp.map (fun b => b ^^^ 0x36)
  let opad := kp.map (fun b => b ^^^ 0x5c)
  sha256 (opad ++ sha256 (ipad ++ msg))

/- ------------------------------------------------------------------ -/
/- Signature generation and verification. -/

/-- The lowercase hexadecimal digit character of a value below sixteen:
digits map to ASCII 48 and up, letters to ASCII 97 and up. -/
def hexDigitChar (n : Nat) : Char :=
  if n < 10 then Char.ofNat (48 + n) else Char.ofNat (87 + n)

/-- Lowercase hexadecimal rendering of a byte list. -/
def hexOfBytes (bs : List Nat) : String :=
  String.mk (bs.flatMap (fun b => [hexDigitChar (b / 16 % 16), hexDigitChar (b % 16)]))

/-- Byte model of a text string (code points; coincides with UTF-8 on ASCII). -/
def utf8Bytes (s : String) : List Nat :=
  s.data.map Char.toNat

/-- A hexadecimal digit character, either case. -/
def isHexChar (c : Char) : Bool :=
  ('0' ≤ c ∧ c ≤ '9') ∨ ('a' ≤ c ∧ c ≤ 'f') ∨ ('A' ≤ c ∧ c ≤ 'F')

/-- A lowercase hexadecimal digit character (the renderer's output range). -/
def isLowerHexChar (c : Char) : Bool :=
  ('0' ≤ c ∧ c ≤ '9') ∨ ('a' ≤ c ∧ c ≤ 'f')

/-- A well-formed (hexadecimal) presented signature string. -/
def isHexString (s : String) : Bool :=
  s.data.all isHexChar

/-- Decimal string of an integer. -/
def decimalString (n : Int) : String :=
  String.mk ((intDecimal n).map Char.ofNat)

/-- Modelled from the spec: the signing string of `SignatureGenerator`
(`auth.py` is missing) — the decimal timestamp, an explicit `"."` separator,
and the hex rendering of the canonical payload bytes. -/
def signingString (timestamp : Int) (payload : Value) : String :=
  decimalString timestamp ++ "." ++ hexOfBytes (encode_payload payload)

/-- The MAC value itself: lowercase hex of HMAC-SHA256 over the signing string,
keyed by the shared secret. -/
def rawSignature (secret : String) (timestamp : Int) (payload : Value) : String :=
  hexOfBytes (hmacSha256 (utf8Bytes secret) (utf8Bytes (signingString timestamp payload)))

/-- Error taxonomy of the auth module: `InvalidSecretError` for an empty
secret at signing, `InvalidInputError` for malformed verify inputs. -/
inductive AuthError where
  | invalidSecret : AuthError
  | invalidInput : AuthError
deriving DecidableEq

/-- Modelled from the spec: `create_signature` of `auth.py` (missing from the
sources) — fails with `InvalidSecretError` on an empty secret, otherwise the
lowercase-hex HMAC-SHA256 of the signing string. -/
def create_signature (secret : String) (timestamp : Int) (payload : Value) :
    Except AuthError String :=
  if secret = "" then .error .invalidSecret
  else .ok (rawSignature secret timestamp payload)

/-- XOR the corresponding bytes of two equal-length byte lists. -/
def xorDiffs (a b : List Nat) : List Nat :=
  List.zipWith (fun x y => x ^^^ y) a b

/-- Fold a bitwise OR over a difference list, also counting the number of
fold steps taken, so that the absence of data-dependent short-circuiting is a
provable property of the definition. -/
def ctAccum : Nat → List Nat → Nat × Nat
  | acc, [] => (acc, 0)
  | acc, d :: ds => ((ctAccum (acc ||| d) ds).1, (ctAccum (acc ||| d) ds).2 + 1)

/-- Modelled from the spec: the constant-time comparison of
`SignatureVerifier` (`auth.py` is missing) — a length-first check, then a
bitwise-OR accumulation of XORed bytes over the whole length, checked against
zero at the end; no early return on the first differing byte. -/
def constantTimeEq (a b : List Nat) : Bool :=
  decide (a.length = b.length) && decide ((ctAccum 0 (xorDiffs a b)).1 = 0)

/-- Modelled from the spec: `verify_signature` of `auth.py` (missing from the
sources) — raise `InvalidInputError` on a missing secret or a non-hex
presented signature; reject stale timestamps outside the tolerance window;
otherwise compare the recomputed signature in constant time. -/
def verify_signature (secret : String) (timestamp : Int) (payload : Value)
    (signature : String) (now : Int) (tolerance_seconds : Int) :
    Except AuthError Bool :=
  if secret = "" then .error .invalidInput
  else if isHexString signature then
    if (((now - timestamp).natAbs : Int) > tolerance_seconds) then .ok false
    else .ok (constantTimeEq (utf8Bytes (rawSignature secret timestamp payload))
                             (utf8Bytes signature))
  else .error .invalidInput

/- ------------------------------------------------------------------ -/
/- The client constructor. -/

/-- The configured state of a DoorPasses client (the fields the shipped tests
observe). -/
structure DoorPasses where
  account_id : String
  shared_secret : String
  base_url : String
  timeout_ms : Nat

/-- Modelled from the spec: the `DoorPasses` client constructor (`client.py`
is missing from the sources).  Empty credentials raise
`ValueError("account_id and shared_secret are required")` and the defaults are
pinned by the shipped tests `test_default_base_url` and `test_default_timeout`
(`tests/test_client.py`), whose assertions fix the default base URL to
`"https://api.doorpasses.io"` and the default timeout to 30000 ms. -/
def DoorPasses_init (account_id shared_secret : String)
    (base_url : Option String) (timeout_ms : Option Nat) :
    Except String DoorPasses :=
  if account_id = "" ∨ shared_secret = "" then
    .error "account_id and shared_secret are required"
  else
    .ok { account_id := account_id, shared_secret := shared_secret,
          base_url := base_url.getD "https://api.doorpasses.io",
          timeout_ms := timeout_ms.getD 30000 }

/- ------------------------------------------------------------------ -/
/- Semantic equality of payloads and well-formedness. -/

mutual

/-- Equality of payloads under key/value semantics: identical scalars,
elementwise-equivalent sequences, and objects whose entry lists agree as
key-to-value mappings — that is, up to a permutation of entries followed by
entrywise equality of keys and equivalence of values, at every nesting
level. -/
inductive EquivVal : Value → Value → Prop where
  | str (s : String) : EquivVal (.str s) (.str s)
  | num (n : Int) : EquivVal (.num n) (.num n)
  | bool (b : Bool) : EquivVal (.bool b) (.bool b)
  | null : EquivVal .null .null
  | arr {vs ws : List Value} : EquivList vs ws → EquivVal (.arr vs) (.arr ws)
  | obj {kvs mid kvs' : List (String × Value)} :
      kvs.Perm mid → EquivEntries mid kvs' → EquivVal (.obj kvs) (.obj kvs')

/-- Elementwise equivalence of sequences (order is significant). -/
inductive EquivList : List Value → List Value → Prop where
  | nil : EquivList [] []
  | cons {v w : Value} {vs ws : List Value} :
      EquivVal v w → EquivList vs ws → EquivList (v :: vs) (w :: ws)

/-- Entrywise equivalence of entry lists: equal keys, equivalent values. -/
inductive EquivEntries : List (String × Value) → List (String × Value) → Prop where
  | nil : EquivEntries [] []
  | cons {k : String} {v w : Value} {kvs kvs' : List (String × Value)} :
      EquivVal v w → EquivEntries kvs kvs' →
      EquivEntries ((k, v) :: kvs) ((k, w) :: kvs')

end

mutual

/-- Well-formed payload: every object has pairwise-distinct keys, at every
nesting level (a Python `dict` cannot hold duplicate keys). -/
def wfVal : Value → Bool
  | .str _ => true
  | .num _ => true
  | .bool _ => true
  | .null => true
  | .arr vs => wfItems vs
  | .obj kvs => decide ((kvs.map Prod.fst).Nodup) && wfEntries kvs
termination_by structural v => v

/-- Well-formedness of each element of a sequence. -/
def wfItems : List Value → Bool
  | [] => true
  | v :: vs => wfVal v && wfItems vs
termination_by structural vs => vs

/-- Well-formedness of each value of an entry list. -/
def wfEntries : List (String × Value) → Bool
  | [] => true
  | (_, v) :: kvs => wfVal v && wfEntries kvs
termination_by structural kvs => kvs

end

mutual

/-- Every object's entry list is already in key order (used to state that the
canonical form serializes keys sorted at every nesting level). -/
def ordVal : Value → Bool
  | .str _ => true
  | .num _ => true
  | .bool _ => true
  | .null => true
  | .arr vs => ordItems vs
  | .obj kvs => decide (List.Pairwise entryLe kvs) && ordEntries kvs
termination_by structural v => v

/-- Key-orderedness of each element of a sequence. -/
def ordItems : List Value → Bool
  | [] => true
  | v :: vs => ordVal v && ordItems vs
termination_by structural vs => vs

/-- Key-orderedness of each value of an entry list. -/
def ordEntries : List (String × Value) → Bool
  | [] => true
  | (_, v) :: kvs => ordVal v && ordEntries kvs
termination_by structural kvs => kvs

end

/- ------------------------------------------------------------------ -/
/- Basic facts about the constant-time comparison. -/

theorem lor_eq_zero {a b : Nat} : a ||| b = 0 ↔ a = 0 ∧ b = 0 := by
  constructor
  · intro h
    have hb : ∀ i, a.testBit i = false ∧ b.testBit i = false := by
      intro i
      have h2 : (a ||| b).testBit i = false := by rw [h]; exact Nat.zero_testBit i
      rw [Nat.testBit_lor] at h2
      exact Bool.or_eq_false_iff.mp h2
    exact ⟨Nat.eq_of_testBit_eq (fun i => by rw [(hb i).1, Nat.zero_testBit]),
           Nat.eq_of_testBit_eq (fun i => by rw [(hb i).2, Nat.zero_testBit])⟩
  · rintro ⟨rfl, rfl⟩
    rfl

theorem ctAccum_fst_eq_zero :
    ∀ (ds : List Nat) (acc : Nat),
      (ctAccum acc ds).1 = 0 ↔ acc = 0 ∧ ∀ d ∈ ds, d = 0 := by
  intro ds
  induction ds with
  | nil => intro acc; simp [ctAccum]
  | cons d ds ih =>
    intro acc
    rw [ctAccum, ih, lor_eq_zero]
    simp only [List.mem_cons]
    constructor
    · rintro ⟨⟨h1, h2⟩, h3⟩
      refine ⟨h1, ?_⟩
      rintro x (rfl | hx)
      · exact h2
      · exact h3 x hx
    · rintro ⟨h1, h2⟩
      exact ⟨⟨h1, h2 d (Or.inl rfl)⟩, fun x hx => h2 x (Or.inr hx)⟩

theorem ctAccum_steps :
    ∀ (ds : List Nat) (acc : Nat), (ctAccum acc ds).2 = ds.length := by
  intro ds
  induction ds with
  | nil => intro acc; simp [ctAccum]
  | cons d ds ih => intro acc; rw [ctAccum, ih]; simp

theorem constantTimeEq_eq_true_iff {a b : List Nat} :
    constantTimeEq a b = true ↔ a = b := by
  unfold constantTimeEq
  simp only [Bool.and_eq_true, decide_eq_true_eq]
  constructor
  · rintro ⟨hlen, hz⟩
    rw [ctAccum_fst_eq_zero] at hz
    apply List.ext_getElem hlen
    intro i h1 h2
    have hi : i < (xorDiffs a b).length := by
      simp [xorDiffs, List.length_zipWith]
      omega
    have hmem : (xorDiffs a b)[i] ∈ xorDiffs a b := List.getElem_mem hi
    have hzero : (xorDiffs a b)[i] = 0 := hz.2 _ hmem
    simp only [xorDiffs, List.getElem_zipWith] at hzero
    exact Nat.xor_eq_zero.mp hzero
  · rintro rfl
    refine ⟨rfl, ?_⟩
    rw [ctAccum_fst_eq_zero]
    refine ⟨rfl, ?_⟩
    intro d hd
    rcases List.mem_iff_getElem.mp hd with ⟨i, hi, rfl⟩
    simp only [xorDiffs, List.getElem_zipWith, Nat.xor_self]

theorem constantTimeEq_eq_false_of_ne {a b : List Nat} (h : a ≠ b) :
    constantTimeEq a b = false := by
  rcases hb : constantTimeEq a b with _ | _
  · rfl
  · exact absurd (constantTimeEq_eq_true_iff.mp hb) h

theorem constantTimeEq_length_first {a b : List Nat} (h : a.length ≠ b.length) :
    constantTimeEq a b = false := by
  apply constantTimeEq_eq_false_of_ne
  intro hab
  exact h (by rw [hab])

/- ------------------------------------------------------------------ -/
/- Facts about the hexadecimal rendering. -/

theorem lowerHex_hexDigitChar : ∀ i : Fin 16, isLowerHexChar (hexDigitChar i.val) = true := by
  decide

theorem lowerHex_isHexChar {c : Char} (h : isLowerHexChar c = true) : isHexChar c = true := by
  rw [isLowerHexChar, decide_eq_true_eq] at h
  rw [isHexChar, decide_eq_true_eq]
  tauto

theorem hexOfBytes_data (bs : List Nat) :
    (hexOfBytes bs).data = bs.flatMap (fun b => [hexDigitChar (b / 16 % 16), hexDigitChar (b % 16)]) :=
  rfl

theorem mem_hexOfBytes {c : Char} {bs : List Nat} (h : c ∈ (hexOfBytes bs).data) :
    isLowerHexChar c = true := by
  rw [hexOfBytes_data] at h
  rcases List.mem_flatMap.mp h with ⟨b, _, hc⟩
  have hd : ∀ n : Nat, isLowerHexChar (hexDigitChar (n % 16)) = true := by
    intro n
    have h16 : n % 16 < 16 := Nat.mod_lt _ (by omega)
    exact lowerHex_hexDigitChar ⟨n % 16, h16⟩
  rcases List.mem_cons.mp hc with rfl | hc
  · exact hd _
  · rcases List.mem_cons.mp hc with rfl | hc
    · exact hd _
    · cases hc

theorem isHexString_hexOfBytes (bs : List Nat) : isHexString (hexOfBytes bs) = true := by
  rw [isHexString, List.all_eq_true]
  intro c hc
  exact lowerHex_isHexChar (mem_hexOfBytes hc)

/- ------------------------------------------------------------------ -/
/- Basic facts about signing and verification. -/

theorem create_signature_eq_ok {secret : String} (t : Int) (p : Value)
    (h : secret ≠ "") :
    create_signature secret t p = .ok (rawSignature secret t p) := by
  simp [create_signature, h]

theorem create_signature_ok_inv {secret : String} {t : Int} {p : Value} {sg : String}
    (h : create_signature secret t p = .ok sg) :
    secret ≠ "" ∧ sg = rawSignature secret t p := by
  by_cases hs : secret = ""
  · simp [create_signature, hs] at h
  · refine ⟨hs, ?_⟩
    simp [create_signature, hs] at h
    exact h.symm

theorem isHexString_rawSignature (secret : String) (t : Int) (p : Value) :
    isHexString (rawSignature secret t p) = true := by
  rw [rawSignature]
  exact isHexString_hexOfBytes _

theorem verify_signature_ok_path {secret sig : String} {t now tol : Int} {p : Value}
    (hs : secret ≠ "") (hhex : isHexString sig = true)
    (hfresh : ¬ (((now - t).natAbs : Int) > tol)) :
    verify_signature secret t p sig now tol =
      .ok (constantTimeEq (utf8Bytes (rawSignature secret t p)) (utf8Bytes sig)) := by
  unfold verify_signature
  rw [hhex]
  simp only [eq_self_iff_true, if_true]
  rw [if_neg hs, if_neg hfresh]

theorem verify_signature_stale {secret sig : String} {t now tol : Int} {p : Value}
    (hs : secret ≠ "") (hhex : isHexString sig = true)
    (hfresh : ((now - t).natAbs : Int) > tol) :
    verify_signature secret t p sig now tol = .ok false := by
  unfold verify_signature
  rw [hhex]
  simp only [eq_self_iff_true, if_true]
  rw [if_neg hs, if_pos hfresh]

/-- C1: for every non-empty secret `S`, timestamp `T`, and payload `P`,
verifying the signature produced by `create_signature S T P` with `now = T`
and tolerance 300 succeeds with `true`. -/
theorem c1_round_trip {S : String} {T : Int} {P : Value} {sg : String}
    (hS : S ≠ "") (hsg : create_signature S T P = .ok sg) :
    verify_signature S T P sg T 300 = .ok true := by
  obtain ⟨-, rfl⟩ := create_signature_ok_inv hsg
  have hct : constantTimeEq (utf8Bytes (rawSignature S T P)) (utf8Bytes (rawSignature S T P)) = true :=
    constantTimeEq_eq_true_iff.mpr rfl
  rw [verify_signature_ok_path hS (isHexString_rawSignature S T P) (by omega), hct]

/-- Witness for C1 at the spec's concrete scenario. -/
theorem c1_round_trip_witness :
    ("shh" : String) ≠ "" ∧
    create_signature "shh" 1700000000 (.obj [("pass_id", .str "abc123"), ("action", .str "issue")]) =
      .ok (rawSignature "shh" 1700000000 (.obj [("pass_id", .str "abc123"), ("action", .str "issue")])) ∧
    verify_signature "shh" 1700000000 (.obj [("pass_id", .str "abc123"), ("action", .str "issue")])
      (rawSignature "shh" 1700000000 (.obj [("pass_id", .str "abc123"), ("action", .str "issue")]))
      1700000000 300 = .ok true :=
  ⟨by decide, create_signature_eq_ok _ _ (by decide),
   c1_round_trip (by decide) (create_signature_eq_ok _ _ (by decide))⟩

/-- C3: with the correct signature, verification returns `false` exactly when
`|now - timestamp|` exceeds the tolerance; in particular at tolerance 300 it
accepts at `now = T + 300` and rejects at `now = T + 301`. -/
theorem c3_freshness_window {S : String} {T : Int} {P : Value} {sg : String}
    (hsg : create_signature S T P = .ok sg) :
    (∀ now tol : Int,
        verify_signature S T P sg now tol = .ok false ↔ (((now - T).natAbs : Int) > tol)) ∧
    verify_signature S T P sg (T + 300) 300 = .ok true ∧
    verify_signature S T P sg (T + 301) 300 = .ok false := by
  obtain ⟨hS, rfl⟩ := create_signature_ok_inv hsg
  have hhex := isHexString_rawSignature S T P
  have hct : constantTimeEq (utf8Bytes (rawSignature S T P)) (utf8Bytes (rawSignature S T P)) = true :=
    constantTimeEq_eq_true_iff.mpr rfl
  refine ⟨?_, ?_, ?_⟩
  · intro now tol
    by_cases hfresh : (((now - T).natAbs : Int) > tol)
    · rw [verify_signature_stale hS hhex hfresh]
      exact ⟨fun _ => hfresh, fun _ => rfl⟩
    · rw [verify_signature_ok_path hS hhex hfresh, hct]
      exact ⟨fun h => absurd (Except.ok.inj h) (by decide), fun h => absurd h hfresh⟩
  · rw [verify_signature_ok_path hS hhex (by omega), hct]
  · exact verify_signature_stale hS hhex (by omega)

/-- Witness for C3 at a concrete secret, timestamp and payload. -/
theorem c3_freshness_window_witness :
    create_signature "shh" 1700000000 (.str "x") =
      .ok (rawSignature "shh" 1700000000 (.str "x")) ∧
    ((∀ now tol : Int,
        verify_signature "shh" 1700000000 (.str "x") (rawSignature "shh" 1700000000 (.str "x")) now tol = .ok false ↔
          (((now - 1700000000).natAbs : Int) > tol)) ∧
      verify_signature "shh" 1700000000 (.str "x") (rawSignature "shh" 1700000000 (.str "x")) (1700000000 + 300) 300 = .ok true ∧
      verify_signature "shh" 1700000000 (.str "x") (rawSignature "shh" 1700000000 (.str "x")) (1700000000 + 301) 300 = .ok false) :=
  ⟨create_signature_eq_ok _ _ (by decide),
   c3_freshness_window (create_signature_eq_ok _ _ (by decide))⟩

/-- C5: for a non-empty secret, `create_signature` is the lowercase-hex
HMAC-SHA256, keyed by the secret, of the signing string
`<decimal timestamp> "." <hex of encode_payload>`. -/
theorem c5_signature_construction {S : String} (T : Int) (P : Value) (hS : S ≠ "") :
    create_signature S T P =
      .ok (hexOfBytes (hmacSha256 (utf8Bytes S)
        (utf8Bytes (decimalString T ++ "." ++ hexOfBytes (encode_payload P))))) := by
  rw [create_signature_eq_ok _ _ hS, rawSignature, signingString]

/-- Witness for C5 at a concrete secret, timestamp and payload. -/
theorem c5_signature_construction_witness :
    ("shh" : String) ≠ "" ∧
    create_signature "shh" 1700000000 (.obj [("pass_id", .str "abc123"), ("action", .str "issue")]) =
      .ok (hexOfBytes (hmacSha256 (utf8Bytes "shh")
        (utf8Bytes (decimalString 1700000000 ++ "." ++
          hexOfBytes (encode_payload (.obj [("pass_id", .str "abc123"), ("action", .str "issue")])))))) :=
  ⟨by decide, c5_signature_construction 1700000000 _ (by decide)⟩

/-- C6: `create_signature` fails with `InvalidSecretError` exactly on an empty
secret; `verify_signature` raises `InvalidInputError` exactly on malformed
inputs (missing secret or non-hex presented signature) and otherwise returns a
plain boolean. -/
theorem c6_error_handling :
    (∀ (T : Int) (P : Value), create_signature "" T P = .error .invalidSecret) ∧
    (∀ (S : String) (T : Int) (P : Value), S ≠ "" →
        ∃ sg, create_signature S T P = .ok sg) ∧
    (∀ (T now tol : Int) (P : Value) (sig : String),
        verify_signature "" T P sig now tol = .error .invalidInput) ∧
    (∀ (S sig : String) (T now tol : Int) (P : Value), isHexString sig = false →
        verify_signature S T P sig now tol = .error .invalidInput) ∧
    (∀ (S sig : String) (T now tol : Int) (P : Value), S ≠ "" → isHexString sig = true →
        ∃ b, verify_signature S T P sig now tol = .ok b) := by
  refine ⟨?_, ?_, ?_, ?_, ?_⟩
  · intro T P
    simp [create_signature]
  · intro S T P hS
    exact ⟨_, create_signature_eq_ok _ _ hS⟩
  · intro T now tol P sig
    simp [verify_signature]
  · intro S sig T now tol P hhex
    by_cases hS : S = ""
    · simp [verify_signature, hS]
    · simp [verify_signature, hS, hhex]
  · intro S sig T now tol P hS hhex
    by_cases hfresh : (((now - T).natAbs : Int) > tol)
    · exact ⟨false, verify_signature_stale hS hhex hfresh⟩
    · exact ⟨_, verify_signature_ok_path hS hhex hfresh⟩

/-- Witness for C6 at concrete inputs for each branch of the contract. -/
theorem c6_error_handling_witness :
    create_signature "" 0 .null = .error .invalidSecret ∧
    (∃ sg, create_signature "k" 0 .null = .ok sg) ∧
    verify_signature "" 0 .null "ab" 0 300 = .error .invalidInput ∧
    verify_signature "k" 0 .null "zz" 0 300 = .error .invalidInput ∧
    (∃ b, verify_signature "k" 0 .null "ab" 0 300 = .ok b) :=
  ⟨c6_error_handling.1 0 .null,
   c6_error_handling.2.1 "k" 0 .null (by decide),
   c6_error_handling.2.2.1 0 0 300 .null "ab",
   c6_error_handling.2.2.2.1 "k" "zz" 0 0 300 .null (by decide),
   c6_error_handling.2.2.2.2 "k" "ab" 0 0 300 .null (by decide) (by decide)⟩

/- ------------------------------------------------------------------ -/
/- The client constructor: defaults and credential validation. -/

/-- C9 (counterexample): constructed without an explicit base URL, the client's
base URL is not `"https://api.example.com"`; the shipped test pins it to
`"https://api.doorpasses.io"`. -/
theorem c9_default_base_url_counterexample :
    (DoorPasses_init "test_account" "test_secret" none none).map DoorPasses.base_url =
      .ok "https://api.doorpasses.io" ∧
    (DoorPasses_init "test_account" "test_secret" none none).map DoorPasses.base_url ≠
      .ok "https://api.example.com" := by
  constructor
  · simp [DoorPasses_init, Except.map]
  · simp [DoorPasses_init, Except.map]

/-- C9 (amended): when the client is constructed without an explicit
`base_url`, the configured base URL defaults to
`"https://api.doorpasses.io"`. -/
theorem c9_default_base_url {a s : String} (ha : a ≠ "") (hs : s ≠ "") :
    (DoorPasses_init a s none none).map DoorPasses.base_url =
      .ok "https://api.doorpasses.io" := by
  simp [DoorPasses_init, ha, hs, Except.map]

/-- Witness for the amended C9 at the shipped test's credentials. -/
theorem c9_default_base_url_witness :
    (DoorPasses_init "test_account" "test_secret" none none).map DoorPasses.base_url =
      .ok "https://api.doorpasses.io" :=
  c9_default_base_url (by decide) (by decide)

/-- C10: constructing the client with an empty `account_id` or an empty
`shared_secret` fails with `ValueError("account_id and shared_secret are
required")`. -/
theorem c10_missing_credentials :
    (∀ s : String,
        DoorPasses_init "" s none none = .error "account_id and shared_secret are required") ∧
    (∀ a : String,
        DoorPasses_init a "" none none = .error "account_id and shared_secret are required") := by
  constructor
  · intro s
    simp [DoorPasses_init]
  · intro a
    simp [DoorPasses_init]

/- ------------------------------------------------------------------ -/
/- Shape facts: the signature is a 64-character lowercase hex string. -/

theorem data_mk (l : List Char) : (String.mk l).data = l := rfl

theorem round256_length {st : List Nat} (kw : Nat × Nat) (h : st.length = 8) :
    (round256 st kw).length = 8 := by
  rcases st with _ | ⟨a, _ | ⟨b, _ | ⟨c, _ | ⟨d, _ | ⟨e, _ | ⟨f, _ | ⟨g, _ | ⟨x, _ | ⟨y, t⟩⟩⟩⟩⟩⟩⟩⟩⟩ <;>
    simp_all [round256]

theorem foldl_round256_length :
    ∀ (l : List (Nat × Nat)) (st : List Nat), st.length = 8 →
      (l.foldl round256 st).length = 8 := by
  intro l
  induction l with
  | nil => intro st h; exact h
  | cons kw l ih => intro st h; exact ih _ (round256_length kw h)

theorem compress_length {h : List Nat} (block : List Nat) (hl : h.length = 8) :
    (compress h block).length = 8 := by
  simp only [compress, List.length_map, List.length_zip,
    foldl_round256_length _ _ hl, hl]
  decide

theorem sha256Blocks_length :
    ∀ (n : Nat) (h bytes : List Nat), h.length = 8 →
      (sha256Blocks n h bytes).length = 8 := by
  intro n
  induction n with
  | zero => intro h bytes hl; exact hl
  | succ n ih => intro h bytes hl; exact ih _ _ (compress_length _ hl)

theorem flatMap_wordToBytes_length :
    ∀ l : List Nat, (l.flatMap wordToBytes).length = 4 * l.length := by
  intro l
  induction l with
  | nil => rfl
  | cons x l ih =>
    simp only [List.flatMap_cons, List.length_append, ih, wordToBytes]
    simp
    omega

theorem sha256_length (msg : List Nat) : (sha256 msg).length = 32 := by
  rw [sha256, flatMap_wordToBytes_length, sha256Blocks_length]
  rfl

theorem hmacSha256_length (key msg : List Nat) : (hmacSha256 key msg).length = 32 :=
  sha256_length _

theorem hexPairs_length :
    ∀ bs : List Nat,
      (bs.flatMap (fun b => [hexDigitChar (b / 16 % 16), hexDigitChar (b % 16)])).length =
        2 * bs.length := by
  intro bs
  induction bs with
  | nil => rfl
  | cons b bs ih =>
    simp only [List.flatMap_cons, List.length_append, ih, List.length_cons,
      List.length_nil, List.length_singleton]
    omega

theorem rawSignature_length (S : String) (T : Int) (P : Value) :
    (rawSignature S T P).data.length = 64 := by
  rw [rawSignature, hexOfBytes_data, hexPairs_length, hmacSha256_length]

theorem z_not_mem_rawSignature (S : String) (T : Int) (P : Value) :
    'z' ∉ (rawSignature S T P).data := by
  intro h
  have hm : 'z' ∈ (hexOfBytes (hmacSha256 (utf8Bytes S) (utf8Bytes (signingString T P)))).data := by
    rw [rawSignature] at h
    exact h
  exact absurd (mem_hexOfBytes hm) (by decide)

/-- C8: the verifier's comparison step is exactly the `constantTimeEq`
routine: a length-first check followed by a full-length bitwise-OR
accumulation of XORed bytes whose step count depends only on the input
lengths (never on where the first difference occurs), and which decides
equality of the byte lists. -/
theorem c8_constant_time_compare :
    (∀ (secret sig : String) (t now tol : Int) (p : Value),
        secret ≠ "" → isHexString sig = true → ¬ (((now - t).natAbs : Int) > tol) →
        verify_signature secret t p sig now tol =
          .ok (constantTimeEq (utf8Bytes (rawSignature secret t p)) (utf8Bytes sig))) ∧
    (∀ a b : List Nat, a.length ≠ b.length → constantTimeEq a b = false) ∧
    (∀ a b : List Nat, (ctAccum 0 (xorDiffs a b)).2 = min a.length b.length) ∧
    (∀ a b : List Nat, constantTimeEq a b = true ↔ a = b) := by
  refine ⟨?_, ?_, ?_, ?_⟩
  · intro secret sig t now tol p hs hhex hfresh
    exact verify_signature_ok_path hs hhex hfresh
  · intro a b h
    exact constantTimeEq_length_first h
  · intro a b
    simp [ctAccum_steps, xorDiffs, List.length_zipWith]
  · intro a b
    exact constantTimeEq_eq_true_iff

/-- Witness for C8 at concrete inputs for each conjunct. -/
theorem c8_constant_time_compare_witness :
    verify_signature "k" 0 .null "ab" 0 300 =
      .ok (constantTimeEq (utf8Bytes (rawSignature "k" 0 .null)) (utf8Bytes "ab")) ∧
    constantTimeEq [1] [1, 2] = false ∧
    (ctAccum 0 (xorDiffs [1, 2, 3] [1, 9, 3])).2 = min ([1, 2, 3] : List Nat).length ([1, 9, 3] : List Nat).length ∧
    (constantTimeEq [1, 2] [1, 2] = true ↔ ([1, 2] : List Nat) = [1, 2]) :=
  ⟨c8_constant_time_compare.1 "k" "ab" 0 0 300 .null (by decide) (by decide) (by decide),
   c8_constant_time_compare.2.1 [1] [1, 2] (by decide),
   c8_constant_time_compare.2.2.1 [1, 2, 3] [1, 9, 3],
   c8_constant_time_compare.2.2.2 [1, 2] [1, 2]⟩

/-- C4 (amended): for a non-empty secret, replacing any single byte of the
produced signature by a different byte that keeps the string hexadecimal makes
verification return `false`; a replacement by a non-hex byte instead raises
`InvalidInputError` (see the counterexample). -/
theorem c4_tamper_detection {S : String} {T : Int} {P : Value} {sg : String}
    (hS : S ≠ "") (hsg : create_signature S T P = .ok sg)
    (i : Nat) (hi : i < sg.data.length) (c : Char)
    (hne : c ≠ sg.data[i]) (hchex : isHexChar c = true) :
    verify_signature S T P (String.mk (sg.data.set i c)) T 300 = .ok false := by
  obtain ⟨-, rfl⟩ := create_signature_ok_inv hsg
  have hhexmod : isHexString (String.mk ((rawSignature S T P).data.set i c)) = true := by
    rw [isHexString, data_mk, List.all_eq_true]
    intro x hx
    rcases List.mem_iff_getElem.mp hx with ⟨j, hj, rfl⟩
    rw [List.getElem_set]
    split_ifs with hij
    · exact hchex
    · have hall := isHexString_rawSignature S T P
      rw [isHexString, List.all_eq_true] at hall
      exact hall _ (List.getElem_mem _)
  rw [verify_signature_ok_path hS hhexmod (by omega)]
  have hne' : utf8Bytes (rawSignature S T P) ≠
      utf8Bytes (String.mk ((rawSignature S T P).data.set i c)) := by
    intro heq
    have h2 := congrArg (fun l : List Nat => l[i]?) heq
    simp only [utf8Bytes, data_mk, List.getElem?_map] at h2
    rw [List.getElem?_eq_getElem hi,
        List.getElem?_eq_getElem (by rw [List.length_set]; exact hi)] at h2
    simp only [Option.map_some', Option.some.injEq, List.getElem_set_self] at h2
    have h3 := congrArg Char.ofNat h2
    rw [Char.ofNat_toNat, Char.ofNat_toNat] at h3
    exact hne h3.symm
  rw [constantTimeEq_eq_false_of_ne hne']

/-- Witness for the amended C4: replacing the first signature byte with the
hex character `'A'` (never produced by the lowercase renderer) is rejected. -/
theorem c4_tamper_detection_witness :
    ("shh" : String) ≠ "" ∧
    create_signature "shh" 1700000000 (.str "x") =
      .ok (rawSignature "shh" 1700000000 (.str "x")) ∧
    0 < (rawSignature "shh" 1700000000 (.str "x")).data.length ∧
    isHexChar 'A' = true ∧
    verify_signature "shh" 1700000000 (.str "x")
      (String.mk ((rawSignature "shh" 1700000000 (.str "x")).data.set 0 'A'))
      1700000000 300 = .ok false := by
  have hlen : 0 < (rawSignature "shh" 1700000000 (.str "x")).data.length := by
    rw [rawSignature_length]
    omega
  have hne : 'A' ≠ (rawSignature "shh" 1700000000 (.str "x")).data[0] := by
    intro h
    have hm : (rawSignature "shh" 1700000000 (.str "x")).data[0] ∈
        (rawSignature "shh" 1700000000 (.str "x")).data := List.getElem_mem _
    rw [← h] at hm
    have := mem_hexOfBytes (by rw [rawSignature] at hm; exact hm)
    exact absurd this (by decide)
  exact ⟨by decide, create_signature_eq_ok _ _ (by decide), hlen, by decide,
    c4_tamper_detection (by decide) (create_signature_eq_ok _ _ (by decide)) 0 hlen 'A' hne (by decide)⟩

/-- C4 (counterexample): the produced signature is non-empty and contains no
`'z'`, so replacing its first byte by `'z'` is a genuine single-byte
modification; verification of the modified signature raises
`InvalidInputError` instead of returning `false`. -/
theorem c4_tamper_detection_counterexample :
    (rawSignature "shh" 1700000000 (.str "x")).data ≠ [] ∧
    'z' ∉ (rawSignature "shh" 1700000000 (.str "x")).data ∧
    verify_signature "shh" 1700000000 (.str "x")
      (String.mk ((rawSignature "shh" 1700000000 (.str "x")).data.set 0 'z'))
      1700000000 300 = .error .invalidInput := by
  refine ⟨?_, z_not_mem_rawSignature _ _ _, ?_⟩
  · intro h
    have hl := rawSignature_length "shh" 1700000000 (.str "x")
    rw [h] at hl
    simp at hl
  · have hnz : isHexString (String.mk
        ((rawSignature "shh" 1700000000 (.str "x")).data.set 0 'z')) = false := by
      rcases hd : (rawSignature "shh" 1700000000 (.str "x")).data with _ | ⟨c0, rest⟩
      · exfalso
        have hl := rawSignature_length "shh" 1700000000 (.str "x")
        rw [hd] at hl
        simp at hl
      · rw [List.set_cons_zero, isHexString, data_mk, List.all_cons]
        simp [isHexChar]
    unfold verify_signature
    rw [hnz, if_neg (by decide : ¬ ("shh" : String) = "")]
    simp

/- ------------------------------------------------------------------ -/
/- Canonicalization: order-independence machinery. -/

theorem perm_sizeOf_eq {α : Type} [SizeOf α] {l₁ l₂ : List α} (h : l₁.Perm l₂) :
    sizeOf l₁ = sizeOf l₂ := by
  induction h with
  | nil => rfl
  | cons x _ ih => simp [ih]
  | swap x y l => simp; omega
  | trans _ _ ih1 ih2 => rw [ih1, ih2]

theorem canonArr_eq_map : ∀ vs : List Value, canonArr vs = vs.map canonSort := by
  intro vs
  induction vs with
  | nil => rfl
  | cons v vs ih => rw [canonArr, ih, List.map_cons]

theorem canonEntries_eq_map :
    ∀ kvs : List (String × Value),
      canonEntries kvs = kvs.map (fun p => (p.1, canonSort p.2)) := by
  intro kvs
  induction kvs with
  | nil => rfl
  | cons p kvs ih =>
    rcases p with ⟨k, v⟩
    rw [canonEntries, ih, List.map_cons]

theorem keys_canonEntries (kvs : List (String × Value)) :
    (canonEntries kvs).map Prod.fst = kvs.map Prod.fst := by
  rw [canonEntries_eq_map, List.map_map]
  rfl

theorem wfItems_iff :
    ∀ vs : List Value, wfItems vs = true ↔ ∀ v ∈ vs, wfVal v = true := by
  intro vs
  induction vs with
  | nil => simp [wfItems]
  | cons v vs ih => rw [wfItems, Bool.and_eq_true, ih]; simp

theorem wfEntries_iff :
    ∀ kvs : List (String × Value), wfEntries kvs = true ↔ ∀ p ∈ kvs, wfVal p.2 = true := by
  intro kvs
  induction kvs with
  | nil => simp [wfEntries]
  | cons p kvs ih =>
    rcases p with ⟨k, v⟩
    rw [wfEntries, Bool.and_eq_true, ih]
    simp

theorem ordEntries_iff :
    ∀ kvs : List (String × Value), ordEntries kvs = true ↔ ∀ p ∈ kvs, ordVal p.2 = true := by
  intro kvs
  induction kvs with
  | nil => simp [ordEntries]
  | cons p kvs ih =>
    rcases p with ⟨k, v⟩
    rw [ordEntries, Bool.and_eq_true, ih]
    simp

/-- The strict key order, used to show that key-sorted entry lists with
pairwise-distinct keys are unique up to permutation. -/
def entryLt (p q : String × Value) : Prop := p.1 < q.1

instance : IsAntisymm (String × Value) entryLt :=
  ⟨fun _ _ h1 h2 => absurd (lt_trans h1 h2) (lt_irrefl _)⟩

theorem sortEntries_perm (l : List (String × Value)) : (sortEntries l).Perm l :=
  List.perm_insertionSort entryLe l

theorem sortEntries_sorted (l : List (String × Value)) :
    List.Sorted entryLe (sortEntries l) :=
  List.sorted_insertionSort entryLe l

theorem sorted_strict_of_nodup_keys {l : List (String × Value)}
    (hs : List.Sorted entryLe l) (hnd : (l.map Prod.fst).Nodup) :
    List.Sorted entryLt l := by
  have hne : l.Pairwise (fun p q : String × Value => p.1 ≠ q.1) :=
    List.pairwise_map.mp hnd
  exact (hs.and hne).imp (fun h => lt_of_le_of_ne h.1 h.2)

theorem sortEntries_eq_of_perm {l₁ l₂ : List (String × Value)}
    (hperm : l₁.Perm l₂) (hnd : (l₁.map Prod.fst).Nodup) :
    sortEntries l₁ = sortEntries l₂ := by
  have hp : (sortEntries l₁).Perm (sortEntries l₂) :=
    (sortEntries_perm l₁).trans (hperm.trans (sortEntries_perm l₂).symm)
  have hnd1 : ((sortEntries l₁).map Prod.fst).Nodup :=
    ((sortEntries_perm l₁).map Prod.fst).nodup_iff.mpr hnd
  exact List.eq_of_perm_of_sorted hp
    (sorted_strict_of_nodup_keys (sortEntries_sorted l₁) hnd1)
    (sorted_strict_of_nodup_keys (sortEntries_sorted l₂)
      (((sortEntries_perm l₂).map Prod.fst).nodup_iff.mpr
        ((hperm.map Prod.fst).nodup_iff.mp hnd)))

theorem canon_eq_aux :
    ∀ n : Nat,
      (∀ v w : Value, sizeOf v ≤ n → wfVal v = true → EquivVal v w →
        canonSort v = canonSort w) ∧
      (∀ vs ws : List Value, sizeOf vs ≤ n → wfItems vs = true → EquivList vs ws →
        canonArr vs = canonArr ws) ∧
      (∀ kvs kvs' : List (String × Value), sizeOf kvs ≤ n → wfEntries kvs = true →
        EquivEntries kvs kvs' → canonEntries kvs = canonEntries kvs') := by
  intro n
  induction n with
  | zero =>
    refine ⟨?_, ?_, ?_⟩
    · intro v w hsz
      exfalso
      cases v <;> simp at hsz
    · intro vs ws hsz
      exfalso
      cases vs <;> simp at hsz
    · intro kvs kvs' hsz
      exfalso
      cases kvs <;> simp at hsz
  | succ n ih =>
    obtain ⟨ihv, ihl, ihe⟩ := ih
    refine ⟨?_, ?_, ?_⟩
    · intro v w hsz hwf heq
      cases heq with
      | str s => rfl
      | num m => rfl
      | bool b => rfl
      | null => rfl
      | @arr vs ws hlist =>
        rw [canonSort, canonSort]
        rw [wfVal] at hwf
        rw [ihl vs ws (by simp at hsz; omega) hwf hlist]
      | @obj kvs mid kvs' hperm hent =>
        rw [canonSort, canonSort]
        congr 1
        rw [wfVal, Bool.and_eq_true, decide_eq_true_eq] at hwf
        obtain ⟨hnd, hwfe⟩ := hwf
        have hszk : sizeOf kvs ≤ n := by simp at hsz; omega
        have hmid : canonEntries mid = canonEntries kvs' := by
          apply ihe mid kvs' ?_ ?_ hent
          · rw [← perm_sizeOf_eq hperm]
            exact hszk
          · rw [wfEntries_iff]
            intro p hp
            exact (wfEntries_iff kvs).mp hwfe p (hperm.mem_iff.mpr hp)
        have hpc : (canonEntries kvs).Perm (canonEntries kvs') := by
          rw [← hmid, canonEntries_eq_map, canonEntries_eq_map]
          exact hperm.map _
        apply sortEntries_eq_of_perm hpc
        rw [keys_canonEntries]
        exact hnd
    · intro vs ws hsz hwf heq
      cases heq with
      | nil => rfl
      | @cons v w vs' ws' hv hrest =>
        rw [canonArr, canonArr]
        rw [wfItems, Bool.and_eq_true] at hwf
        have hs1 : sizeOf v ≤ n := by simp at hsz; omega
        have hs2 : sizeOf vs' ≤ n := by simp at hsz; omega
        rw [ihv v w hs1 hwf.1 hv, ihl vs' ws' hs2 hwf.2 hrest]
    · intro kvs kvs' hsz hwf heq
      cases heq with
      | nil => rfl
      | @cons k v w t t' hv ht =>
        rw [canonEntries, canonEntries]
        rw [wfEntries, Bool.and_eq_true] at hwf
        have hs1 : sizeOf v ≤ n := by simp at hsz; omega
        have hs2 : sizeOf t ≤ n := by simp at hsz; omega
        rw [ihv v w hs1 hwf.1 hv, ihe t t' hs2 hwf.2 ht]

theorem ord_canon_aux :
    ∀ n : Nat,
      (∀ v : Value, sizeOf v ≤ n → ordVal (canonSort v) = true) ∧
      (∀ vs : List Value, sizeOf vs ≤ n → ordItems (canonArr vs) = true) ∧
      (∀ kvs : List (String × Value), sizeOf kvs ≤ n →
        ordEntries (canonEntries kvs) = true) := by
  intro n
  induction n with
  | zero =>
    refine ⟨?_, ?_, ?_⟩
    · intro v hsz
      exfalso
      cases v <;> simp at hsz
    · intro vs hsz
      exfalso
      cases vs <;> simp at hsz
    · intro kvs hsz
      exfalso
      cases kvs <;> simp at hsz
  | succ n ih =>
    obtain ⟨ihv, ihl, ihe⟩ := ih
    refine ⟨?_, ?_, ?_⟩
    · intro v hsz
      cases v with
      | str s => rfl
      | num m => rfl
      | bool b => rfl
      | null => rfl
      | arr vs =>
        rw [canonSort, ordVal]
        exact ihl vs (by simp at hsz; omega)
      | obj kvs =>
        rw [canonSort, ordVal, Bool.and_eq_true, decide_eq_true_eq]
        constructor
        · exact sortEntries_sorted _
        · rw [ordEntries_iff]
          intro p hp
          have hp' : p ∈ canonEntries kvs := ((sortEntries_perm _).mem_iff).mp hp
          exact (ordEntries_iff _).mp (ihe kvs (by simp at hsz; omega)) p hp'
    · intro vs hsz
      cases vs with
      | nil => rfl
      | cons v vs' =>
        rw [canonArr, ordItems, Bool.and_eq_true]
        exact ⟨ihv v (by simp at hsz; omega), ihl vs' (by simp at hsz; omega)⟩
    · intro kvs hsz
      cases kvs with
      | nil => rfl
      | cons p kvs' =>
        rcases p with ⟨k, v⟩
        rw [canonEntries, ordEntries, Bool.and_eq_true]
        exact ⟨ihv v (by simp at hsz; omega), ihe kvs' (by simp at hsz; omega)⟩

/-- C2: (i) two well-formed payloads that are equal under key/value semantics
(same key/value pairs in any insertion order, at any nesting level) encode to
byte-for-byte identical output, and (ii) the encoder serializes the canonical
form, in which every object's keys appear in byte-wise lexicographic order at
every nesting level. -/
theorem c2_canonical_encoding :
    (∀ v w : Value, wfVal v = true → EquivVal v w →
        encode_payload v = encode_payload w) ∧
    (∀ v : Value, encode_payload v = encodeVal (canonSort v) ∧
        ordVal (canonSort v) = true) := by
  constructor
  · intro v w hwf heq
    rw [encode_payload, encode_payload,
      (canon_eq_aux (sizeOf v)).1 v w le_rfl hwf heq]
  · intro v
    exact ⟨rfl, (ord_canon_aux (sizeOf v)).1 v le_rfl⟩

/-- Witness for C2 at the spec's reordered two-key object. -/
theorem c2_canonical_encoding_witness :
    wfVal (.obj [("b", .num 2), ("a", .num 1)]) = true ∧
    EquivVal (.obj [("b", .num 2), ("a", .num 1)]) (.obj [("a", .num 1), ("b", .num 2)]) ∧
    encode_payload (.obj [("b", .num 2), ("a", .num 1)]) =
      encode_payload (.obj [("a", .num 1), ("b", .num 2)]) ∧
    encode_payload (.obj [("b", .num 2), ("a", .num 1)]) =
      encodeVal (canonSort (.obj [("b", .num 2), ("a", .num 1)])) ∧
    ordVal (canonSort (.obj [("b", .num 2), ("a", .num 1)])) = true := by
  have hwf : wfVal (.obj [("b", .num 2), ("a", .num 1)]) = true := by decide
  have heq : EquivVal (.obj [("b", .num 2), ("a", .num 1)])
      (.obj [("a", .num 1), ("b", .num 2)]) :=
    EquivVal.obj (List.Perm.swap ("a", Value.num 1) ("b", Value.num 2) [])
      (EquivEntries.cons (EquivVal.num 1) (EquivEntries.cons (EquivVal.num 2) EquivEntries.nil))
  exact ⟨hwf, heq, c2_canonical_encoding.1 _ _ hwf heq,
    (c2_canonical_encoding.2 _).1, (c2_canonical_encoding.2 _).2⟩

/- ------------------------------------------------------------------ -/
/- Injectivity of the canonical encoding, via a parser. -/

/-- Greedy decimal parse: consume leading digit bytes into an accumulator. -/
def parseDigits : List Nat → Nat → Nat × List Nat
  | [], acc => (acc, [])
  | b :: bs, acc =>
    if 48 ≤ b ∧ b ≤ 57 then parseDigits bs (acc * 10 + (b - 48))
    else (acc, b :: bs)

/-- Parse an escaped string body up to its closing quote. -/
def parseStrChars : List Nat → Option (List Char × List Nat)
  | [] => none
  | b :: bs =>
    if b = 34 then some ([], bs)
    else if b = 92 then
      match bs with
      | [] => none
      | b2 :: bs2 => (parseStrChars bs2).map (fun p => (Char.ofNat b2 :: p.1, p.2))
    else (parseStrChars bs).map (fun p => (Char.ofNat b :: p.1, p.2))

mutual

/-- Fuel-indexed parser for the canonical grammar (inverse of `encodeVal`). -/
def parseVal : Nat → List Nat → Option (Value × List Nat)
  | 0, _ => none
  | fuel + 1, bs =>
    match bs with
    | [] => none
    | b :: r =>
      if b = 110 then
        match r with
        | 117 :: 108 :: 108 :: r' => some (.null, r')
        | _ => none
      else if b = 116 then
        match r with
        | 114 :: 117 :: 101 :: r' => some (.bool true, r')
        | _ => none
      else if b = 102 then
        match r with
        | 97 :: 108 :: 115 :: 101 :: r' => some (.bool false, r')
        | _ => none
      else if b = 34 then
        (parseStrChars r).map (fun p => (.str (String.mk p.1), p.2))
      else if b = 91 then
        if r.head? = some 93 then some (.arr [], r.tail)
        else (parseItems fuel r).map (fun p => (.arr p.1, p.2))
      else if b = 123 then
        if r.head? = some 125 then some (.obj [], r.tail)
        else (parseEntriesRest fuel r).map (fun p => (.obj p.1, p.2))
      else if b = 45 then
        some (.num (-((parseDigits r 0).1 : Int)), (parseDigits r 0).2)
      else if 48 ≤ b ∧ b ≤ 57 then
        some (.num ((parseDigits (b :: r) 0).1 : Int), (parseDigits (b :: r) 0).2)
      else none
termination_by structural fuel => fuel

/-- Parse the comma-separated elements of a non-empty sequence up to `]`. -/
def parseItems : Nat → List Nat → Option (List Value × List Nat)
  | 0, _ => none
  | fuel + 1, bs =>
    (parseVal fuel bs).bind (fun p =>
      match p.2 with
      | 44 :: r' => (parseItems fuel r').map (fun q => (p.1 :: q.1, q.2))
      | 93 :: r' => some ([p.1], r')
      | _ => none)
termination_by structural fuel => fuel

/-- Parse the comma-separated entries of a non-empty object up to `}`. -/
def parseEntriesRest : Nat → List Nat → Option (List (String × Value) × List Nat)
  | 0, _ => none
  | fuel + 1, bs =>
    match bs with
    | 34 :: r =>
      (parseStrChars r).bind (fun ps =>
        match ps.2 with
        | 58 :: r2 =>
          (parseVal fuel r2).bind (fun pv =>
            match pv.2 with
            | 44 :: r3 =>
              (parseEntriesRest fuel r3).map
                (fun q => ((String.mk ps.1, pv.1) :: q.1, q.2))
            | 125 :: r3 => some ([(String.mk ps.1, pv.1)], r3)
            | _ => none)
        | _ => none)
    | _ => none
termination_by structural fuel => fuel

end

/-- The continuation after an encoded value never begins with a digit byte, so
the greedy number parse stops exactly at the value boundary. -/
def stopsNum : List Nat → Prop
  | [] => True
  | b :: _ => ¬ (48 ≤ b ∧ b ≤ 57)

theorem parseDigits_append :
    ∀ (ds : List Nat) (acc : Nat) (rest : List Nat),
      (∀ d ∈ ds, d < 10) → stopsNum rest →
      parseDigits (ds.map (fun d => 48 + d) ++ rest) acc =
        (ds.foldl (fun a d => a * 10 + d) acc, rest) := by
  intro ds
  induction ds with
  | nil =>
    intro acc rest _ hs
    cases rest with
    | nil => rfl
    | cons b bs =>
      rw [List.map_nil, List.nil_append, List.foldl_nil, parseDigits, if_neg hs]
  | cons d ds ih =>
    intro acc rest hd hs
    rw [List.map_cons, List.cons_append, parseDigits,
      if_pos (by have := hd d (List.mem_cons_self d ds); omega)]
    have hsub : 48 + d - 48 = d := by omega
    rw [hsub, ih _ _ (fun x hx => hd x (List.mem_cons_of_mem _ hx)) hs, List.foldl_cons]

theorem foldl_digits_eq :
    ∀ (L : List Nat) (acc : Nat),
      L.reverse.foldl (fun a d => a * 10 + d) acc =
        acc * 10 ^ L.length + Nat.ofDigits 10 L := by
  intro L
  induction L with
  | nil => intro acc; simp [Nat.ofDigits]
  | cons d L ih =>
    intro acc
    rw [List.reverse_cons, List.foldl_append, ih acc, List.foldl_cons, List.foldl_nil,
      Nat.ofDigits_cons, List.length_cons]
    ring

theorem parseDigits_natDecimal (n : Nat) (rest : List Nat) (hs : stopsNum rest) :
    parseDigits (natDecimal n ++ rest) 0 = (n, rest) := by
  by_cases h0 : n = 0
  · subst h0
    have h48 : ([48] : List Nat) = [0].map (fun d => 48 + d) := rfl
    rw [natDecimal, if_pos rfl, h48, parseDigits_append [0] 0 rest (by simp) hs]
    rfl
  · rw [natDecimal, if_neg h0]
    have hd : ∀ d ∈ (Nat.digits 10 n).reverse, d < 10 := by
      intro d hdm
      exact Nat.digits_lt_base (by omega) (List.mem_reverse.mp hdm)
    rw [parseDigits_append _ 0 rest hd hs, foldl_digits_eq]
    simp [Nat.ofDigits_digits]

theorem natDecimal_ne_nil (n : Nat) : natDecimal n ≠ [] := by
  rw [natDecimal]
  split_ifs with h
  · simp
  · simp [Nat.digits_ne_nil_iff_ne_zero.mpr h]

theorem natDecimal_mem {n b : Nat} (hb : b ∈ natDecimal n) : 48 ≤ b ∧ b ≤ 57 := by
  rw [natDecimal] at hb
  split_ifs at hb with h
  · rcases List.mem_singleton.mp hb with rfl
    omega
  · rcases List.mem_map.mp hb with ⟨d, hd, rfl⟩
    have := Nat.digits_lt_base (by omega) (List.mem_reverse.mp hd)
    omega

theorem intDecimal_head (n : Int) :
    ∃ b t, intDecimal n = b :: t ∧ (b = 45 ∨ (48 ≤ b ∧ b ≤ 57)) := by
  rw [intDecimal]
  split_ifs with h
  · exact ⟨45, _, rfl, Or.inl rfl⟩
  · rcases hd : natDecimal n.natAbs with _ | ⟨b, t⟩
    · exact absurd hd (natDecimal_ne_nil _)
    · refine ⟨b, t, rfl, Or.inr ?_⟩
      exact natDecimal_mem (hd ▸ List.mem_cons_self b t)

theorem encodeVal_head (v : Value) :
    ∃ b t, encodeVal v = b :: t ∧ b ≠ 93 ∧ b ≠ 125 ∧ b ≠ 44 := by
  cases v with
  | str s => exact ⟨34, _, rfl, by omega, by omega, by omega⟩
  | num n =>
    rcases intDecimal_head n with ⟨b, t, hbt, hb⟩
    rw [encodeVal, hbt]
    exact ⟨b, t, rfl, by omega, by omega, by omega⟩
  | bool b =>
    cases b
    · exact ⟨102, _, rfl, by omega, by omega, by omega⟩
    · exact ⟨116, _, rfl, by omega, by omega, by omega⟩
  | null => exact ⟨110, _, rfl, by omega, by omega, by omega⟩
  | arr vs => exact ⟨91, _, rfl, by omega, by omega, by omega⟩
  | obj kvs => exact ⟨123, _, rfl, by omega, by omega, by omega⟩

theorem encodeItems_cons_head (v0 : Value) (vs : List Value) :
    ∃ b t, encodeItems (v0 :: vs) = b :: t ∧ b ≠ 93 ∧ b ≠ 125 ∧ b ≠ 44 := by
  rcases encodeVal_head v0 with ⟨b, t, hbt, h1, h2, h3⟩
  cases vs with
  | nil => exact ⟨b, t, by rw [encodeItems, hbt], h1, h2, h3⟩
  | cons v1 vs' =>
    refine ⟨b, t ++ 44 :: encodeItems (v1 :: vs'), ?_, h1, h2, h3⟩
    rw [encodeItems, hbt, List.cons_append]
    simp

theorem encodeEntries_cons_head (k : String) (v : Value) (kvs : List (String × Value)) :
    ∃ t, encodeEntries ((k, v) :: kvs) = 34 :: t := by
  cases kvs with
  | nil => exact ⟨_, rfl⟩
  | cons e kvs' => exact ⟨_, rfl⟩

theorem parseStrChars_strBytes :
    ∀ (cs : List Char) (rest : List Nat),
      parseStrChars (cs.flatMap escChar ++ 34 :: rest) = some (cs, rest) := by
  intro cs
  induction cs with
  | nil =>
    intro rest
    rw [List.flatMap_nil, List.nil_append, parseStrChars.eq_def]
    simp
  | cons c cs ih =>
    intro rest
    by_cases hc : c = '"' ∨ c = '\\'
    · have h1 : (c :: cs).flatMap escChar ++ 34 :: rest =
          92 :: c.toNat :: (cs.flatMap escChar ++ 34 :: rest) := by
        rw [List.flatMap_cons, escChar, if_pos hc]
        simp
      rw [h1]
      simp [parseStrChars, ih rest, Char.ofNat_toNat]
    · have h34 : c.toNat ≠ 34 := by
        intro h
        apply hc
        left
        have h2 := congrArg Char.ofNat h
        rwa [Char.ofNat_toNat] at h2
      have h92 : c.toNat ≠ 92 := by
        intro h
        apply hc
        right
        have h2 := congrArg Char.ofNat h
        rwa [Char.ofNat_toNat] at h2
      have h1 : (c :: cs).flatMap escChar ++ 34 :: rest =
          c.toNat :: (cs.flatMap escChar ++ 34 :: rest) := by
        rw [List.flatMap_cons, escChar, if_neg hc]
        simp
      rw [h1, parseStrChars.eq_def]
      simp [h34, h92, ih rest, Char.ofNat_toNat]

theorem digit_byte_dispatch {b : Nat} (h1 : 48 ≤ b) (h2 : b ≤ 57) :
    b ≠ 110 ∧ b ≠ 116 ∧ b ≠ 102 ∧ b ≠ 34 ∧ b ≠ 91 ∧ b ≠ 123 ∧ b ≠ 45 := by
  omega

theorem parse_round_aux :
    ∀ fuel : Nat,
      (∀ (v : Value) (rest : List Nat), sizeOf v ≤ fuel → stopsNum rest →
        parseVal fuel (encodeVal v ++ rest) = some (v, rest)) ∧
      (∀ (vs : List Value) (rest : List Nat), vs ≠ [] → sizeOf vs ≤ fuel →
        parseItems fuel (encodeItems vs ++ 93 :: rest) = some (vs, rest)) ∧
      (∀ (kvs : List (String × Value)) (rest : List Nat), kvs ≠ [] → sizeOf kvs ≤ fuel →
        parseEntriesRest fuel (encodeEntries kvs ++ 125 :: rest) = some (kvs, rest)) := by
  intro fuel
  induction fuel with
  | zero =>
    refine ⟨?_, ?_, ?_⟩
    · intro v rest hsz _
      exfalso
      cases v <;> simp at hsz
    · intro vs rest _ hsz
      exfalso
      cases vs <;> simp at hsz
    · intro kvs rest _ hsz
      exfalso
      cases kvs <;> simp at hsz
  | succ n ih =>
    obtain ⟨ihv, ihl, ihe⟩ := ih
    refine ⟨?_, ?_, ?_⟩
    · intro v rest hsz hstop
      cases v with
      | null => rfl
      | bool b => cases b <;> rfl
      | str s =>
        have h1 : encodeVal (.str s) ++ rest =
            34 :: (s.data.flatMap escChar ++ 34 :: rest) := by
          rw [encodeVal, strBytes]
          simp
        rw [h1, parseVal.eq_def]
        norm_num
        rw [parseStrChars_strBytes]
        exact ⟨s.data, rfl, rfl⟩
      | num m =>
        by_cases hm : m < 0
        · have h1 : encodeVal (.num m) ++ rest = 45 :: (natDecimal m.natAbs ++ rest) := by
            rw [encodeVal, intDecimal, if_pos hm]
            simp
          rw [h1, parseVal.eq_def]
          norm_num
          rw [parseDigits_natDecimal _ _ hstop]
          refine ⟨?_, rfl⟩
          show -((m.natAbs : Int)) = m
          omega
        · rcases hnd : natDecimal m.natAbs with _ | ⟨b, t⟩
          · exact absurd hnd (natDecimal_ne_nil _)
          · have hrange : 48 ≤ b ∧ b ≤ 57 := natDecimal_mem (hnd ▸ List.mem_cons_self b t)
            have h1 : encodeVal (.num m) ++ rest = b :: (t ++ rest) := by
              rw [encodeVal, intDecimal, if_neg hm, hnd]
              simp
            obtain ⟨d1, d2, d3, d4, d5, d6, d7⟩ := digit_byte_dispatch hrange.1 hrange.2
            rw [h1, parseVal.eq_def]
            simp only []
            rw [if_neg d1, if_neg d2, if_neg d3, if_neg d4, if_neg d5,
              if_neg d6, if_neg d7, if_pos (by omega)]
            have h2 : b :: (t ++ rest) = natDecimal m.natAbs ++ rest := by
              rw [hnd]
              rfl
            rw [h2, parseDigits_natDecimal _ _ hstop]
            have h3 : ((m.natAbs : Int)) = m := by omega
            show some (Value.num ((m.natAbs : Int)), rest) = some (.num m, rest)
            rw [h3]
      | arr vs =>
        cases vs with
        | nil => rfl
        | cons v0 vs' =>
          rcases encodeItems_cons_head v0 vs' with ⟨b, t, hbt, h93, _, _⟩
          have h1 : encodeVal (.arr (v0 :: vs')) ++ rest =
              91 :: (b :: (t ++ 93 :: rest)) := by
            rw [encodeVal, hbt]
            simp
          rw [h1, parseVal.eq_def]
          norm_num [h93]
          have h2 : b :: (t ++ 93 :: rest) = encodeItems (v0 :: vs') ++ 93 :: rest := by
            rw [hbt]
            rfl
          rw [h2, ihl (v0 :: vs') rest (by simp) (by simp at hsz ⊢; omega)]
      | obj kvs =>
        cases kvs with
        | nil => rfl
        | cons e kvs' =>
          rcases e with ⟨k, v0⟩
          rcases encodeEntries_cons_head k v0 kvs' with ⟨t, hbt⟩
          have h1 : encodeVal (.obj ((k, v0) :: kvs')) ++ rest =
              123 :: (34 :: (t ++ 125 :: rest)) := by
            rw [encodeVal, hbt]
            simp
          rw [h1, parseVal.eq_def]
          norm_num
          have h2 : (34 : Nat) :: (t ++ 125 :: rest) =
              encodeEntries ((k, v0) :: kvs') ++ 125 :: rest := by
            rw [hbt]
            rfl
          rw [h2, ihe ((k, v0) :: kvs') rest (by simp) (by simp at hsz ⊢; omega)]
    · intro vs rest hne hsz
      cases vs with
      | nil => exact absurd rfl hne
      | cons v0 vs' =>
        cases vs' with
        | nil =>
          have h1 : encodeItems [v0] ++ 93 :: rest = encodeVal v0 ++ 93 :: rest := by
            rw [encodeItems]
          rw [h1, parseItems,
            ihv v0 (93 :: rest) (by simp at hsz; omega) (by rw [stopsNum]; omega)]
          rfl
        | cons v1 vs'' =>
          have h1 : encodeItems (v0 :: v1 :: vs'') ++ 93 :: rest =
              encodeVal v0 ++ (44 :: (encodeItems (v1 :: vs'') ++ 93 :: rest)) := by
            rw [encodeItems]
            all_goals simp
          rw [h1, parseItems,
            ihv v0 _ (by simp at hsz; omega) (by rw [stopsNum]; omega)]
          simp only [Option.some_bind]
          rw [ihl (v1 :: vs'') rest (by simp) (by simp at hsz ⊢; omega)]
          rfl
    · intro kvs rest hne hsz
      cases kvs with
      | nil => exact absurd rfl hne
      | cons e kvs' =>
        rcases e with ⟨k, v0⟩
        cases kvs' with
        | nil =>
          have h1 : encodeEntries [(k, v0)] ++ 125 :: rest =
              34 :: (k.data.flatMap escChar ++ 34 :: (58 :: (encodeVal v0 ++ 125 :: rest))) := by
            rw [encodeEntries, strBytes]
            simp
          rw [h1, parseEntriesRest, parseStrChars_strBytes]
          simp only [Option.some_bind]
          rw [ihv v0 _ (by simp at hsz; omega) (by rw [stopsNum]; omega)]
          rfl
        | cons e2 kvs'' =>
          rcases e2 with ⟨k2, v2⟩
          have h1 : encodeEntries ((k, v0) :: (k2, v2) :: kvs'') ++ 125 :: rest =
              34 :: (k.data.flatMap escChar ++ 34 :: (58 :: (encodeVal v0 ++
                44 :: (encodeEntries ((k2, v2) :: kvs'') ++ 125 :: rest)))) := by
            rw [encodeEntries]
            all_goals simp [strBytes]
          rw [h1, parseEntriesRest, parseStrChars_strBytes]
          simp only [Option.some_bind]
          rw [ihv v0 _ (by simp at hsz; omega) (by rw [stopsNum]; omega)]
          simp only [Option.some_bind]
          rw [ihe ((k2, v2) :: kvs'') rest (by simp) (by simp at hsz ⊢; omega)]
          rfl

theorem encodeVal_inj {v w : Value} (h : encodeVal v = encodeVal w) : v = w := by
  have h1 := (parse_round_aux (max (sizeOf v) (sizeOf w))).1 v []
    (Nat.le_max_left _ _) trivial
  have h2 := (parse_round_aux (max (sizeOf v) (sizeOf w))).1 w []
    (Nat.le_max_right _ _) trivial
  rw [h] at h1
  rw [h1] at h2
  exact (Prod.mk.injEq _ _ _ _ ▸ Option.some.inj h2).1

theorem perm_map_decomp {α β : Type} (f : α → β) :
    ∀ (l' l : List α), (l.map f).Perm (l'.map f) →
      ∃ mid, l.Perm mid ∧ List.Forall₂ (fun a b => f a = f b) mid l' := by
  intro l'
  induction l' with
  | nil =>
    intro l h
    have hl : l = [] := by
      rw [List.map_nil] at h
      exact List.map_eq_nil_iff.mp h.eq_nil
    subst hl
    exact ⟨[], List.Perm.refl _, List.Forall₂.nil⟩
  | cons b t ih =>
    intro l h
    classical
    have hmem : f b ∈ l.map f := h.mem_iff.mpr (by simp)
    rcases List.mem_map.mp hmem with ⟨a, hal, hfa⟩
    have hperm1 : l.Perm (a :: l.erase a) := List.perm_cons_erase hal
    have h2 : ((l.erase a).map f).Perm (t.map f) := by
      have hm2 : (f a :: (l.erase a).map f).Perm (f b :: t.map f) :=
        (List.map_cons f a (l.erase a) ▸ (hperm1.map f).symm).trans h
      rw [hfa] at hm2
      exact hm2.cons_inv
    rcases ih (l.erase a) h2 with ⟨mid, hp, hf⟩
    exact ⟨a :: mid, hperm1.trans (hp.cons a), List.Forall₂.cons hfa hf⟩

theorem equiv_of_canon_aux :
    ∀ n : Nat,
      (∀ v w : Value, sizeOf v ≤ n → canonSort v = canonSort w → EquivVal v w) ∧
      (∀ vs ws : List Value, sizeOf vs ≤ n → canonArr vs = canonArr ws →
        EquivList vs ws) ∧
      (∀ mid kvs' : List (String × Value), sizeOf mid ≤ n →
        List.Forall₂ (fun a b : String × Value =>
          a.1 = b.1 ∧ canonSort a.2 = canonSort b.2) mid kvs' →
        EquivEntries mid kvs') := by
  intro n
  induction n with
  | zero =>
    refine ⟨?_, ?_, ?_⟩
    · intro v w hsz
      exfalso
      cases v <;> simp at hsz
    · intro vs ws hsz
      exfalso
      cases vs <;> simp at hsz
    · intro mid kvs' hsz
      exfalso
      cases mid <;> simp at hsz
  | succ n ih =>
    obtain ⟨ihv, ihl, ihe⟩ := ih
    refine ⟨?_, ?_, ?_⟩
    · intro v w hsz h
      cases v with
      | str s =>
        cases w <;> simp [canonSort] at h
        subst h
        exact EquivVal.str _
      | num m =>
        cases w <;> simp [canonSort] at h
        subst h
        exact EquivVal.num _
      | bool b =>
        cases w <;> simp [canonSort] at h
        subst h
        exact EquivVal.bool _
      | null =>
        cases w <;> simp [canonSort] at h
        exact EquivVal.null
      | arr vs =>
        cases w <;> simp [canonSort] at h
        case arr ws =>
          exact EquivVal.arr (ihl vs ws (by simp at hsz; omega) h)
      | obj kvs =>
        cases w <;> simp [canonSort] at h
        case obj kvs' =>
          have hperm : (canonEntries kvs).Perm (canonEntries kvs') := by
            have p1 := sortEntries_perm (canonEntries kvs)
            have p2 := sortEntries_perm (canonEntries kvs')
            rw [h] at p1
            exact p1.symm.trans p2
          rw [canonEntries_eq_map, canonEntries_eq_map] at hperm
          rcases perm_map_decomp (fun p : String × Value => (p.1, canonSort p.2))
            kvs' kvs hperm with ⟨mid, hp, hf⟩
          have hf' : List.Forall₂ (fun a b : String × Value =>
              a.1 = b.1 ∧ canonSort a.2 = canonSort b.2) mid kvs' := by
            refine hf.imp (fun a b hab => ?_)
            have h1 : (a.1, canonSort a.2) = (b.1, canonSort b.2) := hab
            exact ⟨(Prod.mk.injEq _ _ _ _ ▸ h1).1, (Prod.mk.injEq _ _ _ _ ▸ h1).2⟩
          have hszm : sizeOf mid ≤ n := by
            rw [← perm_sizeOf_eq hp]
            simp at hsz
            omega
          exact EquivVal.obj hp (ihe mid kvs' hszm hf')
    · intro vs ws hsz h
      cases vs with
      | nil =>
        cases ws with
        | nil => exact EquivList.nil
        | cons w ws' => simp [canonArr] at h
      | cons v vs' =>
        cases ws with
        | nil => simp [canonArr] at h
        | cons w ws' =>
          rw [canonArr, canonArr] at h
          injection h with h1 h2
          exact EquivList.cons (ihv v w (by simp at hsz; omega) h1)
            (ihl vs' ws' (by simp at hsz; omega) h2)
    · intro mid kvs' hsz hf
      cases hf with
      | nil => exact EquivEntries.nil
      | @cons a b mid' kvs'' hab hrest =>
        rcases a with ⟨k1, v1⟩
        rcases b with ⟨k2, v2⟩
        obtain ⟨hk, hc⟩ := hab
        have hk' : k1 = k2 := hk
        subst hk'
        exact EquivEntries.cons (ihv v1 v2 (by simp at hsz; omega) hc)
          (ihe mid' kvs'' (by simp at hsz; omega) hrest)

/-- C7: the canonical encoding is injective with respect to payload meaning —
well-formed payloads with identical canonical bytes are equal under key/value
semantics (equivalently, structurally different payloads encode differently);
in particular `{"a":["1","2"]}` and `{"a":"1,2"}` encode differently. -/
theorem c7_injectivity :
    (∀ v w : Value, wfVal v = true → wfVal w = true →
        encode_payload v = encode_payload w → EquivVal v w) ∧
    encode_payload (.obj [("a", .arr [.str "1", .str "2"])]) ≠
      encode_payload (.obj [("a", .str "1,2")]) := by
  constructor
  · intro v w _ _ h
    exact (equiv_of_canon_aux (sizeOf v)).1 v w le_rfl (encodeVal_inj h)
  · decide

/-- Witness for C7 at a reordered two-key object. -/
theorem encode_concrete_eq :
    encode_payload (.obj [("a", .num 1), ("b", .num 2)]) =
      encode_payload (.obj [("b", .num 2), ("a", .num 1)]) := by
  simp [encode_payload, encodeVal, encodeItems, encodeEntries, canonSort, canonArr,
    canonEntries, sortEntries, strBytes, escChar, natDecimal, intDecimal, entryLe,
    List.insertionSort, List.orderedInsert]

/-- Witness for C7 at a reordered two-key object. -/
theorem c7_injectivity_witness :
    wfVal (.obj [("a", .num 1), ("b", .num 2)]) = true ∧
    wfVal (.obj [("b", .num 2), ("a", .num 1)]) = true ∧
    encode_payload (.obj [("a", .num 1), ("b", .num 2)]) =
      encode_payload (.obj [("b", .num 2), ("a", .num 1)]) ∧
    EquivVal (.obj [("a", .num 1), ("b", .num 2)]) (.obj [("b", .num 2), ("a", .num 1)]) :=
  ⟨by decide, by decide, encode_concrete_eq,
   c7_injectivity.1 _ _ (by decide) (by decide) encode_concrete_eq⟩
